import Mathlib

set_option maxRecDepth 40000

/-!
Verification of the checkers rules engine of vkay0725/checkers-online.

The definitions below are a shallow embedding of the class `CheckersBoard`
in src/backend/checker_server.py (piece constants, board setup, move
generation with mandatory captures and multi-jump discovery, move
application, promotion, terminal detection, and the text-move parser),
together with the variant class of the same name in src/merge_server.py
where a claim cites it (its jump recursion and its `get_winner`).

Modelling conventions:
- the numpy `board` array is a total function `Fin 8 → Fin 8 → Nat`;
  `get_piece` carries the Python bounds check and returns `EMPTY`
  off-board; `bset` models an element assignment (all assignments in the
  source are made at coordinates already validated by the generator);
- Python lists of move triples become `List Move`;
- the recursion `get_jumps`/`get_multi_jumps` is not structurally
  decreasing, so it takes a fuel argument; the top-level entry points pass
  `FUEL = 200`, which can never be exhausted because each recursive level
  strictly extends the duplicate-free list of captured squares, of which
  there are at most 64 on the board (each nesting level consumes two units
  of fuel at most);
- the in-place board mutation that `get_multi_jumps` performs while
  probing for further jumps is modelled faithfully by threading the board
  value through the search and restoring it exactly where the source does.
-/

/-- Piece encoding of checker_server.py. -/
def EMPTY : Nat := 0

/-- Black man (player 1). -/
def BLACK : Nat := 1

/-- White man (player 2). -/
def WHITE : Nat := 2

/-- Black king. -/
def BLACK_KING : Nat := 3

/-- White king. -/
def WHITE_KING : Nat := 4

/-- A board coordinate as the Python code passes it around (possibly off-board). -/
abbrev Coord := Int × Int

/-- A move triple: origin, destination, ordered list of captured squares. -/
abbrev Move := Coord × Coord × List Coord

/-- The 8 by 8 board. -/
abbrev Board := Fin 8 → Fin 8 → Nat

/-- The mutable state of a `CheckersBoard` object: the array and `current_player`. -/
structure GameState where
  board : Board
  current_player : Nat

instance : DecidableEq GameState := by
  intro s t
  rcases s with ⟨b, p⟩
  rcases t with ⟨b2, p2⟩
  have : Decidable (b = b2) := by infer_instance
  rcases this with h | h
  · exact .isFalse (by simp [h])
  · rcases Nat.decEq p p2 with h2 | h2
    · exact .isFalse (by simp [h2])
    · exact .isTrue (by simp [h, h2])

/-- CheckersBoard.is_valid_position. -/
def is_valid_position (r c : Int) : Bool :=
  decide (0 ≤ r ∧ r < 8 ∧ 0 ≤ c ∧ c < 8)

/-- CheckersBoard.get_piece: bounds-checked read, `EMPTY` off-board. -/
def get_piece (b : Board) (r c : Int) : Nat :=
  if h : 0 ≤ r ∧ r < 8 ∧ 0 ≤ c ∧ c < 8 then
    b ⟨r.toNat, by omega⟩ ⟨c.toNat, by omega⟩
  else EMPTY

/-- An element assignment `self.board[r][c] = v` (a no-op off-board; the
source only ever assigns at generator-validated coordinates). -/
def bset (b : Board) (r c : Int) (v : Nat) : Board :=
  fun i j => if ((i.val : Int) = r ∧ (j.val : Int) = c) then v else b i j

/-- CheckersBoard.is_player_piece, with `current_player` passed explicitly. -/
def is_player_piece (b : Board) (p : Nat) (r c : Int) : Bool :=
  if p = BLACK then (get_piece b r c == BLACK) || (get_piece b r c == BLACK_KING)
  else (get_piece b r c == WHITE) || (get_piece b r c == WHITE_KING)

/-- CheckersBoard.is_opponent_piece. -/
def is_opponent_piece (b : Board) (p : Nat) (r c : Int) : Bool :=
  if p = BLACK then (get_piece b r c == WHITE) || (get_piece b r c == WHITE_KING)
  else (get_piece b r c == BLACK) || (get_piece b r c == BLACK_KING)

/-- CheckersBoard.is_king. -/
def is_king (b : Board) (r c : Int) : Bool :=
  (get_piece b r c == BLACK_KING) || (get_piece b r c == WHITE_KING)

/-- CheckersBoard.make_king as a board transformer. -/
def make_kingB (b : Board) (r c : Int) : Board :=
  if get_piece b r c = BLACK ∧ r = 0 then bset b r c BLACK_KING
  else if get_piece b r c = WHITE ∧ r = 7 then bset b r c WHITE_KING
  else b

/-- CheckersBoard.get_move_directions. -/
def get_move_directions (b : Board) (r c : Int) : List (Int × Int) :=
  if get_piece b r c = BLACK_KING ∨ get_piece b r c = WHITE_KING then
    [(-1,-1),(-1,1),(1,-1),(1,1)]
  else if get_piece b r c = BLACK then [(-1,-1),(-1,1)]
  else if get_piece b r c = WHITE then [(1,-1),(1,1)]
  else []

/-- Condition under which CheckersBoard.get_moves emits a simple move in
direction `d`: the destination is on-board and empty. -/
def moveCond (b : Board) (r c : Int) (d : Int × Int) : Prop :=
  is_valid_position (r + d.1) (c + d.2) = true ∧
    get_piece b (r + d.1) (c + d.2) = EMPTY

instance (b : Board) (r c : Int) (d : Int × Int) : Decidable (moveCond b r c d) := by
  unfold moveCond; infer_instance

/-- Loop body of CheckersBoard.get_moves over the direction list. -/
def moveLoop (b : Board) (r c : Int) : List (Int × Int) → List Move
  | [] => []
  | d :: ds =>
    (if moveCond b r c d then
       [(((r, c), (r + d.1, c + d.2), ([] : List Coord)) : Move)]
     else []) ++ moveLoop b r c ds

/-- CheckersBoard.get_moves. -/
def get_movesF (b : Board) (r c : Int) : List Move :=
  moveLoop b r c (get_move_directions b r c)

/-- Condition under which CheckersBoard.get_jumps emits a capture hop in
direction `d`: the landing square two steps away is on-board and empty,
the square one step away holds an opponent piece, and that square is not
already in the captured list of the current chain. -/
def jumpCond (b : Board) (p : Nat) (r c : Int) (cap : List Coord) (d : Int × Int) : Prop :=
  is_valid_position (r + 2*d.1) (c + 2*d.2) = true ∧
    get_piece b (r + 2*d.1) (c + 2*d.2) = EMPTY ∧
    is_opponent_piece b p (r + d.1) (c + d.2) = true ∧
    ((r + d.1, c + d.2) : Coord) ∉ cap

instance (b : Board) (p : Nat) (r c : Int) (cap : List Coord) (d : Int × Int) :
    Decidable (jumpCond b p r c cap d) := by
  unfold jumpCond; infer_instance

/-- Loop body of CheckersBoard.get_jumps over the direction list. The board
is threaded because get_multi_jumps mutates and restores it; `mj` is the
get_multi_jumps call at the next fuel level. -/
def jumpLoop (mj : Board → Nat → Int → Int → List Coord → List Move × Board) :
    List (Int × Int) → Board → Nat → Int → Int → List Coord → List Move × Board
  | [], b, _, _, _, _ => ([], b)
  | d :: ds, b, p, r, c, cap =>
    if jumpCond b p r c cap d then
      let ncap := cap ++ [((r + d.1, c + d.2) : Coord)]
      let res := mj b p (r + 2*d.1) (c + 2*d.2) ncap
      let rest := jumpLoop mj ds res.2 p r c cap
      (((((r, c), (r + 2*d.1, c + 2*d.2), ncap)) : Move) :: (res.1 ++ rest.1), rest.2)
    else jumpLoop mj ds b p r c cap

/-- The piece that get_multi_jumps temporarily writes at the landing
square while probing for further jumps: the current player (as a man)
unless `is_king` holds at that square before the write. -/
def tempPiece (b : Board) (p : Nat) (r c : Int) : Nat :=
  if is_king b r c = true then (if p = BLACK then BLACK_KING else WHITE_KING) else p

/-- The pair (get_jumps, get_multi_jumps) at each fuel level. Component 1
is CheckersBoard.get_jumps, component 2 is CheckersBoard.get_multi_jumps;
both return the produced move list together with the board as the call
leaves it. At fuel level `f+1` each forwards to the other at level `f`. -/
def jumpsMulti : Nat →
    (Board → Nat → Int → Int → List Coord → List Move × Board) ×
    (Board → Nat → Int → Int → List Coord → List Move × Board)
  | 0 => (fun b _ _ _ _ => ([], b), fun b _ _ _ _ => ([], b))
  | f + 1 =>
    ( fun b p r c cap => jumpLoop (jumpsMulti f).2 (get_move_directions b r c) b p r c cap,
      fun b p r c cap =>
        let temp := get_piece b r c
        let b1 := bset b r c (tempPiece b p r c)
        let res := (jumpsMulti f).1 b1 p r c cap
        let multi := res.1.filterMap (fun m =>
          if cap.length < m.2.2.length then some (((r, c), m.2.1, m.2.2) : Move) else none)
        (multi, bset res.2 r c temp) )

/-- CheckersBoard.get_jumps with fuel. -/
def get_jumpsF (f : Nat) (b : Board) (p : Nat) (r c : Int) (cap : List Coord) :
    List Move × Board :=
  (jumpsMulti f).1 b p r c cap

/-- CheckersBoard.get_multi_jumps with fuel. -/
def get_multi_jumpsF (f : Nat) (b : Board) (p : Nat) (r c : Int) (cap : List Coord) :
    List Move × Board :=
  (jumpsMulti f).2 b p r c cap

/-- Fuel passed at the top level; it can never run out (see the header). -/
def FUEL : Nat := 200

/-- The 64 squares in the row-major order of the two nested loops of
CheckersBoard.get_legal_moves. -/
def positionsRM : List Coord :=
  (List.range 64).map (fun k => (((k / 8 : Nat) : Int), ((k % 8 : Nat) : Int)))

/-- Loop body of CheckersBoard.get_legal_moves for one square: accumulated
(moves, jumps) lists plus the threaded board. -/
def legalStep (p : Nat) (acc : List Move × List Move × Board) (q : Coord) :
    List Move × List Move × Board :=
  if is_player_piece acc.2.2 p q.1 q.2 = true then
    ((if acc.2.1 ++ (get_jumpsF FUEL acc.2.2 p q.1 q.2 []).1 = [] then
        acc.1 ++ get_movesF (get_jumpsF FUEL acc.2.2 p q.1 q.2 []).2 q.1 q.2
      else acc.1),
     acc.2.1 ++ (get_jumpsF FUEL acc.2.2 p q.1 q.2 []).1,
     (get_jumpsF FUEL acc.2.2 p q.1 q.2 []).2)
  else acc

/-- CheckersBoard.get_legal_moves before the final jumps-or-moves choice:
the accumulated simple moves, the accumulated jumps, and the board as the
scan leaves it. -/
def legalF (b : Board) (p : Nat) : List Move × List Move × Board :=
  positionsRM.foldl (legalStep p) ([], [], b)

/-- CheckersBoard.get_legal_moves. -/
def get_legal_moves (s : GameState) : List Move :=
  if (legalF s.board s.current_player).2.1 = [] then (legalF s.board s.current_player).1
  else (legalF s.board s.current_player).2.1

/-- The capture moves of every piece of the side to move, square by square
in row-major order (the jumps list that get_legal_moves accumulates). -/
def jlist (b : Board) (p : Nat) : List Coord → List Move
  | [] => []
  | q :: t =>
    (if is_player_piece b p q.1 q.2 = true then (get_jumpsF FUEL b p q.1 q.2 []).1 else [])
      ++ jlist b p t

/-- The simple moves of every piece of the side to move, square by square
in row-major order. -/
def mlist (b : Board) (p : Nat) : List Coord → List Move
  | [] => []
  | q :: t =>
    (if is_player_piece b p q.1 q.2 = true then get_movesF b q.1 q.2 else [])
      ++ mlist b p t

/-- The player switch at the end of CheckersBoard.make_move. -/
def opp (p : Nat) : Nat := if p = BLACK then WHITE else BLACK

/-- The captured-piece removal loop of CheckersBoard.make_move. -/
def clearCaps (b : Board) (caps : List Coord) : Board :=
  caps.foldl (fun bb q => bset bb q.1 q.2 EMPTY) b

/-- The board update that CheckersBoard.make_move performs for a selected
move: clear the origin, write the origin piece at the destination, remove
the captured pieces, then apply make_king at the destination. -/
def apply_moveB (b : Board) (m : Move) : Board :=
  let pc := get_piece b m.1.1 m.1.2
  make_kingB (clearCaps (bset (bset b m.1.1 m.1.2 EMPTY) m.2.1.1 m.2.1.2 pc) m.2.2)
    m.2.1.1 m.2.1.2

/-- CheckersBoard.make_move: select the first legal move with matching
origin and destination; on a match execute it and flip the player, else
report failure and leave the state unchanged. -/
def make_move (s : GameState) (fp tp : Coord) : Bool × GameState :=
  match (get_legal_moves s).find? (fun m => (m.1 == fp) && (m.2.1 == tp)) with
  | none => (false, s)
  | some m => (true, ⟨apply_moveB s.board m, opp s.current_player⟩)

/-- CheckersBoard.is_game_over. -/
def is_game_over (s : GameState) : Bool :=
  (get_legal_moves s).length == 0

/-- CheckersBoard.get_winner (checker_server.py version). -/
def get_winner (s : GameState) : Option Nat :=
  if is_game_over s = true then
    some (if s.current_player = BLACK then WHITE else BLACK)
  else none

/-- The value make_king leaves at a square holding `v` on row `row`. -/
def promoteVal (v : Nat) (row : Int) : Nat :=
  if v = BLACK ∧ row = 0 then BLACK_KING
  else if v = WHITE ∧ row = 7 then WHITE_KING
  else v

/-- CheckersBoard.setup_board: white men on dark squares of rows 0 to 2,
black men on dark squares of rows 5 to 7. -/
def initial_board : Board :=
  fun i j =>
    if (i.val + j.val) % 2 = 1 then
      (if i.val < 3 then WHITE else if 4 < i.val then BLACK else EMPTY)
    else EMPTY

/-- The state CheckersBoard.__init__ builds: initial board, Black to move. -/
def initState : GameState := ⟨initial_board, BLACK⟩

/-- Build a board from a list of (row, col, piece) entries (test helper). -/
def boardOfList (l : List (Nat × Nat × Nat)) : Board :=
  fun i j =>
    match l.find? (fun e => (e.1 == i.val) && (e.2.1 == j.val)) with
    | some e => e.2.2
    | none => EMPTY

/-- Play a sequence of make_move calls (failed calls leave the state as is). -/
def playMoves (s : GameState) : List (Coord × Coord) → GameState
  | [] => s
  | (fp, tp) :: t => playMoves (make_move s fp tp).2 t

/-- Only dark squares are occupied: every square with even row+col is empty. -/
def darkOnly (b : Board) : Prop :=
  ∀ i j : Fin 8, (i.val + j.val) % 2 = 0 → b i j = EMPTY

instance (b : Board) : Decidable (darkOnly b) := by
  unfold darkOnly; infer_instance

/-- Loop body of the merge_server.py CheckersBoard.get_jumps (that variant
does not mutate the board while recursing). -/
def mjumpLoop (mj : Board → Nat → Int → Int → List Coord → List Move) :
    List (Int × Int) → Board → Nat → Int → Int → List Coord → List Move
  | [], _, _, _, _, _ => []
  | d :: ds, b, p, r, c, cap =>
    (if jumpCond b p r c cap d then
       let ncap := cap ++ [((r + d.1, c + d.2) : Coord)]
       ((((r, c), (r + 2*d.1, c + 2*d.2), ncap)) : Move) :: mj b p (r + 2*d.1) (c + 2*d.2) ncap
     else []) ++ mjumpLoop mj ds b p r c cap

/-- merge_server.py CheckersBoard.get_jumps with fuel. -/
def mget_jumpsF : Nat → Board → Nat → Int → Int → List Coord → List Move
  | 0 => fun _ _ _ _ _ => []
  | f + 1 => fun b p r c cap => mjumpLoop (mget_jumpsF f) (get_move_directions b r c) b p r c cap

/-- merge_server.py CheckersBoard.get_legal_moves accumulator scan
(its get_moves is textually identical to the backend one, so `get_movesF`
is reused). -/
def mlegalF (b : Board) (p : Nat) : List Move × List Move :=
  positionsRM.foldl
    (fun acc q =>
      match acc with
      | (ms, js) =>
        if is_player_piece b p q.1 q.2 = true then
          let js2 := js ++ mget_jumpsF FUEL b p q.1 q.2 []
          let ms2 := if js2 = [] then ms ++ get_movesF b q.1 q.2 else ms
          (ms2, js2)
        else acc)
    ([], [])

/-- merge_server.py CheckersBoard.get_legal_moves. -/
def merge_get_legal_moves (s : GameState) : List Move :=
  if (mlegalF s.board s.current_player).2 = [] then (mlegalF s.board s.current_player).1
  else (mlegalF s.board s.current_player).2

/-- merge_server.py CheckersBoard.is_game_over. -/
def merge_is_game_over (s : GameState) : Bool :=
  decide (merge_get_legal_moves s = [])

/-- merge_server.py CheckersBoard.get_winner: no terminal check, always a side. -/
def merge_get_winner (s : GameState) : Nat :=
  if s.current_player = BLACK then WHITE else BLACK

/-- Python `str.split(sep)` for a one-character separator, over the
character list of the string. -/
def splitOnChar (sep : Char) : List Char → List (List Char)
  | [] => [[]]
  | ch :: rest =>
    match splitOnChar sep rest with
    | [] => if ch = sep then [[], []] else [[ch]]
    | h :: t => if ch = sep then [] :: h :: t else (ch :: h) :: t

/-- Python `str.strip()`: drop whitespace from both ends. -/
def stripChars (cs : List Char) : List Char :=
  ((cs.dropWhile Char.isWhitespace).reverse.dropWhile Char.isWhitespace).reverse

/-- Value of a decimal digit character. -/
def digitVal (ch : Char) : Nat := ch.toNat - 48

/-- Remaining digits of a Python integer literal: plain digits, with a
single underscore allowed between two digits. -/
def pyDigitsAux : List Char → Nat → Option Nat
  | [], acc => some acc
  | ch :: rest, acc =>
    if ch = '_' then
      match rest with
      | [] => none
      | d :: rest2 => if d.isDigit then pyDigitsAux rest2 (acc * 10 + digitVal d) else none
    else if ch.isDigit then pyDigitsAux rest (acc * 10 + digitVal ch) else none

/-- Python `int(...)` on an already whitespace-stripped character list:
an optional sign followed by at least one digit. -/
def pyIntCore : List Char → Option Int
  | [] => none
  | ch :: rest =>
    if ch = '+' then
      match rest with
      | [] => none
      | d :: r2 => if d.isDigit then (pyDigitsAux r2 (digitVal d)).map (fun n => (n : Int)) else none
    else if ch = '-' then
      match rest with
      | [] => none
      | d :: r2 => if d.isDigit then (pyDigitsAux r2 (digitVal d)).map (fun n => -(n : Int)) else none
    else if ch.isDigit then (pyDigitsAux rest (digitVal ch)).map (fun n => (n : Int))
    else none

/-- Python `int(str)`: strip surrounding whitespace, then parse. -/
def pyInt (cs : List Char) : Option Int :=
  pyIntCore (stripChars cs)

/-- CheckersBoard.parse_move: split on a dash, split the first two parts on
commas, convert the first two fields of each with `int`; any failure
(missing part, missing field, bad integer) yields `none`. -/
def parse_move (ms : String) : Option (Coord × Coord) :=
  match splitOnChar '-' ms.data with
  | p0 :: p1 :: _ =>
    (match splitOnChar ',' p0, splitOnChar ',' p1 with
     | f0 :: f1 :: _, t0 :: t1 :: _ =>
       (match pyInt f0, pyInt f1, pyInt t0, pyInt t1 with
        | some a, some b2, some c, some d => some ((a, b2), (c, d))
        | _, _, _, _ => none)
     | _, _ => none)
  | _ => none

/-- Module-level function is_valid_move of checker_server.py. -/
def is_valid_move (s : GameState) (ms : String) : Bool :=
  match parse_move ms with
  | none => false
  | some (fp, tp) => (get_legal_moves s).any (fun m => (m.1 == fp) && (m.2.1 == tp))

/-- The wire-grammar string r1,c1-r2,c2 for single-digit coordinates. -/
def gstr (a b c d : Fin 8) : String :=
  String.mk [Char.ofNat (48 + a.val), ',', Char.ofNat (48 + b.val), '-',
             Char.ofNat (48 + c.val), ',', Char.ofNat (48 + d.val)]

/-- Black man that can chain-capture twice, ending on row 1. -/
def c3state : GameState := ⟨boardOfList [(5,2,BLACK),(4,3,WHITE),(2,5,WHITE)], BLACK⟩

/-- Black man that can chain-capture twice, ending on promotion row 0. -/
def c5state : GameState := ⟨boardOfList [(4,1,BLACK),(3,2,WHITE),(1,4,WHITE)], BLACK⟩

/-- Single black man one step from promotion. -/
def c5wstate : GameState := ⟨boardOfList [(1,2,BLACK)], BLACK⟩

/-- Black to move with no black piece on the board: a terminal position. -/
def c6wstate : GameState := ⟨boardOfList [(0,1,WHITE)], BLACK⟩

/-- White king whose second capture would need a backward hop. -/
def c7state : GameState := ⟨boardOfList [(2,1,WHITE_KING),(3,2,BLACK),(3,4,BLACK)], WHITE⟩

/-! Basic lemmas about the board primitives. -/

/-- A coordinate pair that lies on the board. -/
def validCoord (q : Coord) : Prop :=
  0 ≤ q.1 ∧ q.1 < 8 ∧ 0 ≤ q.2 ∧ q.2 < 8

instance (q : Coord) : Decidable (validCoord q) := by
  unfold validCoord; infer_instance

lemma get_piece_invalid (b : Board) (r c : Int)
    (h : ¬(0 ≤ r ∧ r < 8 ∧ 0 ≤ c ∧ c < 8)) : get_piece b r c = EMPTY :=
  dif_neg h

lemma bset_invalid (b : Board) (r c : Int) (v : Nat)
    (h : ¬(0 ≤ r ∧ r < 8 ∧ 0 ≤ c ∧ c < 8)) : bset b r c v = b := by
  funext i j
  unfold bset
  rw [if_neg]
  rintro ⟨hi, hj⟩
  exact h (by constructor <;> omega)

lemma get_piece_bset_self (b : Board) (r c : Int) (v : Nat)
    (h : 0 ≤ r ∧ r < 8 ∧ 0 ≤ c ∧ c < 8) : get_piece (bset b r c v) r c = v := by
  unfold get_piece bset
  rw [dif_pos h, if_pos]
  constructor <;> simp <;> omega

lemma get_piece_bset_ne (b : Board) (r c : Int) (v : Nat) (x y : Int)
    (h : ¬(x = r ∧ y = c)) : get_piece (bset b r c v) x y = get_piece b x y := by
  unfold get_piece
  by_cases hv : 0 ≤ x ∧ x < 8 ∧ 0 ≤ y ∧ y < 8
  · rw [dif_pos hv, dif_pos hv]
    unfold bset
    rw [if_neg]
    rintro ⟨hi, hj⟩
    simp only [Fin.val_mk] at hi hj
    exact h ⟨by omega, by omega⟩
  · rw [dif_neg hv, dif_neg hv]

lemma bset_get_piece_self (b : Board) (r c : Int) :
    bset b r c (get_piece b r c) = b := by
  by_cases hv : 0 ≤ r ∧ r < 8 ∧ 0 ≤ c ∧ c < 8
  · funext i j
    unfold bset
    split
    · next hc =>
      obtain ⟨hi, hj⟩ := hc
      unfold get_piece
      rw [dif_pos hv]
      congr 1 <;> apply Fin.ext <;> simp <;> omega
    · rfl
  · exact bset_invalid _ _ _ _ hv

lemma bset_bset_same (b : Board) (r c : Int) (v w : Nat) :
    bset (bset b r c v) r c w = bset b r c w := by
  funext i j
  by_cases h : ((i.val : Int) = r ∧ (j.val : Int) = c) <;> simp [bset, h]

/-! Unfolding equations for the fueled jump search. -/

lemma get_jumpsF_zero (b : Board) (p : Nat) (r c : Int) (cap : List Coord) :
    get_jumpsF 0 b p r c cap = ([], b) := rfl

lemma get_multi_jumpsF_zero (b : Board) (p : Nat) (r c : Int) (cap : List Coord) :
    get_multi_jumpsF 0 b p r c cap = ([], b) := rfl

lemma get_jumpsF_succ (f : Nat) (b : Board) (p : Nat) (r c : Int) (cap : List Coord) :
    get_jumpsF (f + 1) b p r c cap =
      jumpLoop (get_multi_jumpsF f) (get_move_directions b r c) b p r c cap := rfl

lemma get_multi_jumpsF_succ (f : Nat) (b : Board) (p : Nat) (r c : Int) (cap : List Coord) :
    get_multi_jumpsF (f + 1) b p r c cap =
      (((get_jumpsF f (bset b r c (tempPiece b p r c)) p r c cap).1.filterMap (fun m =>
          if cap.length < m.2.2.length then some (((r, c), m.2.1, m.2.2) : Move) else none)),
        bset (get_jumpsF f (bset b r c (tempPiece b p r c)) p r c cap).2 r c
          (get_piece b r c)) := rfl

/-! Restoration: the jump search puts the board back exactly as it found
it (the temporary writes of get_multi_jumps cancel out). -/

lemma jumpLoop_board (mj : Board → Nat → Int → Int → List Coord → List Move × Board)
    (hmj : ∀ b p r c cap, (mj b p r c cap).2 = b) :
    ∀ (ds : List (Int × Int)) (b : Board) (p : Nat) (r c : Int) (cap : List Coord),
      (jumpLoop mj ds b p r c cap).2 = b := by
  intro ds
  induction ds with
  | nil => intro b p r c cap; rfl
  | cons d t ih =>
    intro b p r c cap
    rw [jumpLoop]
    split
    · simp only [hmj, ih]
    · exact ih b p r c cap

lemma jumps_multi_board (f : Nat) :
    (∀ (b : Board) (p : Nat) (r c : Int) (cap : List Coord),
        (get_jumpsF f b p r c cap).2 = b) ∧
    (∀ (b : Board) (p : Nat) (r c : Int) (cap : List Coord),
        (get_multi_jumpsF f b p r c cap).2 = b) := by
  induction f with
  | zero => exact ⟨fun b p r c cap => rfl, fun b p r c cap => rfl⟩
  | succ f ih =>
    constructor
    · intro b p r c cap
      rw [get_jumpsF_succ]
      exact jumpLoop_board _ ih.2 _ b p r c cap
    · intro b p r c cap
      rw [get_multi_jumpsF_succ]
      simp only [ih.1, bset_bset_same, bset_get_piece_self]

lemma get_jumpsF_board (f : Nat) (b : Board) (p : Nat) (r c : Int) (cap : List Coord) :
    (get_jumpsF f b p r c cap).2 = b := (jumps_multi_board f).1 b p r c cap

lemma get_multi_jumpsF_board (f : Nat) (b : Board) (p : Nat) (r c : Int) (cap : List Coord) :
    (get_multi_jumpsF f b p r c cap).2 = b := (jumps_multi_board f).2 b p r c cap

/-! Membership characterizations for the generated move lists. -/

lemma jumpLoop_mem (mj : Board → Nat → Int → Int → List Coord → List Move × Board)
    (hmj : ∀ b p r c cap, (mj b p r c cap).2 = b) :
    ∀ (ds : List (Int × Int)) (b : Board) (p : Nat) (r c : Int) (cap : List Coord)
      (m : Move),
      m ∈ (jumpLoop mj ds b p r c cap).1 ↔
        ∃ d ∈ ds, jumpCond b p r c cap d ∧
          (m = ((r, c), (r + 2*d.1, c + 2*d.2), cap ++ [(r + d.1, c + d.2)]) ∨
           m ∈ (mj b p (r + 2*d.1) (c + 2*d.2) (cap ++ [(r + d.1, c + d.2)])).1) := by
  intro ds
  induction ds with
  | nil => intro b p r c cap m; simp [jumpLoop]
  | cons d t ih =>
    intro b p r c cap m
    rw [jumpLoop]
    split
    · next hcond =>
      simp only [hmj, List.mem_cons, List.mem_append, ih]
      constructor
      · rintro (hm | hm | hm)
        · exact ⟨d, Or.inl rfl, hcond, Or.inl hm⟩
        · exact ⟨d, Or.inl rfl, hcond, Or.inr hm⟩
        · obtain ⟨d2, hd2, hc2, hm2⟩ := hm
          exact ⟨d2, Or.inr hd2, hc2, hm2⟩
      · rintro ⟨d2, hd2, hc2, hm2⟩
        rcases hd2 with hd2 | hd2
        · subst hd2
          rcases hm2 with hm2 | hm2
          · exact Or.inl hm2
          · exact Or.inr (Or.inl hm2)
        · exact Or.inr (Or.inr ⟨d2, hd2, hc2, hm2⟩)
    · next hcond =>
      rw [ih]
      constructor
      · rintro ⟨d2, hd2, hc2, hm2⟩
        exact ⟨d2, List.mem_cons_of_mem d hd2, hc2, hm2⟩
      · rintro ⟨d2, hd2, hc2, hm2⟩
        rcases List.mem_cons.mp hd2 with hd2 | hd2
        · exact absurd (hd2 ▸ hc2) hcond
        · exact ⟨d2, hd2, hc2, hm2⟩

lemma get_jumpsF_mem (f : Nat) (b : Board) (p : Nat) (r c : Int) (cap : List Coord)
    (m : Move) :
    m ∈ (get_jumpsF (f + 1) b p r c cap).1 ↔
      ∃ d ∈ get_move_directions b r c, jumpCond b p r c cap d ∧
        (m = ((r, c), (r + 2*d.1, c + 2*d.2), cap ++ [(r + d.1, c + d.2)]) ∨
         m ∈ (get_multi_jumpsF f b p (r + 2*d.1) (c + 2*d.2)
                (cap ++ [(r + d.1, c + d.2)])).1) := by
  rw [get_jumpsF_succ]
  exact jumpLoop_mem _ (fun b p r c cap => get_multi_jumpsF_board f b p r c cap) _ b p r c cap m

lemma get_multi_jumpsF_mem (f : Nat) (b : Board) (p : Nat) (r c : Int) (cap : List Coord)
    (m : Move) :
    m ∈ (get_multi_jumpsF (f + 1) b p r c cap).1 ↔
      ∃ m2 ∈ (get_jumpsF f (bset b r c (tempPiece b p r c)) p r c cap).1,
        cap.length < m2.2.2.length ∧ m = ((r, c), m2.2.1, m2.2.2) := by
  rw [get_multi_jumpsF_succ]
  simp only [List.mem_filterMap]
  constructor
  · rintro ⟨m2, hm2, hsome⟩
    by_cases hl : cap.length < m2.2.2.length
    · rw [if_pos hl] at hsome
      exact ⟨m2, hm2, hl, (Option.some_inj.mp hsome).symm⟩
    · rw [if_neg hl] at hsome
      exact absurd hsome (Option.noConfusion)
  · rintro ⟨m2, hm2, hl, hm⟩
    exact ⟨m2, hm2, by rw [if_pos hl, hm]⟩

lemma moveLoop_mem (b : Board) (r c : Int) (ds : List (Int × Int)) (m : Move) :
    m ∈ moveLoop b r c ds ↔
      ∃ d ∈ ds, moveCond b r c d ∧ m = ((r, c), (r + d.1, c + d.2), []) := by
  induction ds with
  | nil => simp [moveLoop]
  | cons d t ih =>
    rw [moveLoop]
    split
    · next hcond =>
      simp only [List.mem_append, List.mem_cons, List.not_mem_nil, or_false, ih]
      constructor
      · rintro (hm | hm)
        · exact ⟨d, Or.inl rfl, hcond, hm⟩
        · obtain ⟨d2, hd2, hc2, hm2⟩ := hm
          exact ⟨d2, Or.inr hd2, hc2, hm2⟩
      · rintro ⟨d2, hd2, hc2, hm2⟩
        rcases hd2 with hd2 | hd2
        · subst hd2; exact Or.inl hm2
        · exact Or.inr ⟨d2, hd2, hc2, hm2⟩
    · next hcond =>
      simp only [List.nil_append, ih, List.mem_cons]
      constructor
      · rintro ⟨d2, hd2, hc2, hm2⟩
        exact ⟨d2, Or.inr hd2, hc2, hm2⟩
      · rintro ⟨d2, hd2, hc2, hm2⟩
        rcases hd2 with hd2 | hd2
        · exact absurd (hd2 ▸ hc2) hcond
        · exact ⟨d2, hd2, hc2, hm2⟩

lemma get_movesF_mem (b : Board) (r c : Int) (m : Move) :
    m ∈ get_movesF b r c ↔
      ∃ d ∈ get_move_directions b r c, moveCond b r c d ∧
        m = ((r, c), (r + d.1, c + d.2), []) := by
  rw [get_movesF]; exact moveLoop_mem b r c _ m

/-- Every direction the source enumerates is a unit diagonal step. -/
lemma dirs_bound (b : Board) (r c : Int) (d : Int × Int)
    (h : d ∈ get_move_directions b r c) :
    (d.1 = -1 ∨ d.1 = 1) ∧ (d.2 = -1 ∨ d.2 = 1) := by
  unfold get_move_directions at h
  split at h
  · fin_cases h <;> simp
  · split at h
    · fin_cases h <;> simp
    · split at h
      · fin_cases h <;> simp
      · exact absurd h (List.not_mem_nil d)

/-! Helper facts about the piece predicates. -/

lemma is_valid_position_iff (r c : Int) :
    is_valid_position r c = true ↔ (0 ≤ r ∧ r < 8 ∧ 0 ≤ c ∧ c < 8) := by
  simp [is_valid_position]

lemma tempPiece_of_empty (b : Board) (p : Nat) (r c : Int)
    (h : get_piece b r c = EMPTY) : tempPiece b p r c = p := by
  simp [tempPiece, is_king, h, EMPTY, BLACK_KING, WHITE_KING]

lemma is_opponent_ne_empty (b : Board) (p : Nat) (x y : Int)
    (h : is_opponent_piece b p x y = true) : get_piece b x y ≠ EMPTY := by
  unfold is_opponent_piece at h
  split at h <;>
    · simp only [Bool.or_eq_true, beq_iff_eq] at h
      rcases h with h | h <;> simp [h, EMPTY, BLACK, WHITE, BLACK_KING, WHITE_KING]

lemma is_opponent_player_false (b : Board) (p : Nat) (x y : Int)
    (hp : p = BLACK ∨ p = WHITE) (h : get_piece b x y = p) :
    is_opponent_piece b p x y = false := by
  rcases hp with hp | hp <;> subst hp <;>
    simp [is_opponent_piece, h, BLACK, WHITE, BLACK_KING, WHITE_KING]

lemma is_opponent_congr (b b2 : Board) (p : Nat) (x y : Int)
    (h : get_piece b x y = get_piece b2 x y) :
    is_opponent_piece b p x y = is_opponent_piece b2 p x y := by
  unfold is_opponent_piece
  rw [h]

lemma player_ne_empty (p : Nat) (hp : p = BLACK ∨ p = WHITE) : p ≠ EMPTY := by
  rcases hp with hp | hp <;> subst hp <;> decide

/-! Every produced capture move strictly extends the incoming captured list. -/

lemma multi_caps_len (f : Nat) (b : Board) (p : Nat) (r c : Int) (cap : List Coord)
    (m : Move) (hm : m ∈ (get_multi_jumpsF f b p r c cap).1) :
    cap.length < m.2.2.length := by
  cases f with
  | zero => exact absurd hm (List.not_mem_nil m)
  | succ f =>
    rw [get_multi_jumpsF_mem] at hm
    obtain ⟨m2, _, hl, heq⟩ := hm
    rw [heq]
    exact hl

lemma jumps_caps_len (f : Nat) (b : Board) (p : Nat) (r c : Int) (cap : List Coord)
    (m : Move) (hm : m ∈ (get_jumpsF f b p r c cap).1) :
    cap.length < m.2.2.length := by
  cases f with
  | zero => exact absurd hm (List.not_mem_nil m)
  | succ f =>
    rw [get_jumpsF_mem] at hm
    obtain ⟨d, _, _, hm | hm⟩ := hm
    · rw [hm]; simp
    · have := multi_caps_len f b p _ _ _ m hm
      simp only [List.length_append, List.length_cons, List.length_nil] at this
      omega

/-! Structural invariant of every produced capture move: the destination is
an on-board empty square of the entry board, and every captured square
either came in with the chain or holds an opponent piece on the entry
board. -/

lemma jumps_multi_inv (f : Nat) :
    (∀ (b : Board) (p : Nat) (r c : Int) (cap : List Coord) (m : Move),
        (p = BLACK ∨ p = WHITE) → m ∈ (get_jumpsF f b p r c cap).1 →
        validCoord m.2.1 ∧ get_piece b m.2.1.1 m.2.1.2 = EMPTY ∧
          ∀ q ∈ m.2.2, q ∈ cap ∨ is_opponent_piece b p q.1 q.2 = true) ∧
    (∀ (b : Board) (p : Nat) (r c : Int) (cap : List Coord) (m : Move),
        (p = BLACK ∨ p = WHITE) → get_piece b r c = EMPTY →
        m ∈ (get_multi_jumpsF f b p r c cap).1 →
        validCoord m.2.1 ∧ get_piece b m.2.1.1 m.2.1.2 = EMPTY ∧
          ∀ q ∈ m.2.2, q ∈ cap ∨ is_opponent_piece b p q.1 q.2 = true) := by
  induction f with
  | zero =>
    constructor
    · intro b p r c cap m _ hm; exact absurd hm (List.not_mem_nil m)
    · intro b p r c cap m _ _ hm; exact absurd hm (List.not_mem_nil m)
  | succ f ih =>
    constructor
    · intro b p r c cap m hp hm
      rw [get_jumpsF_mem] at hm
      obtain ⟨d, _, hc, hm | hm⟩ := hm
      · obtain ⟨hval, hemp, hopp, _⟩ := hc
        subst hm
        refine ⟨?_, hemp, ?_⟩
        · simpa [validCoord] using (is_valid_position_iff _ _).mp hval
        · intro q hq
          rcases List.mem_append.mp hq with hq | hq
          · exact Or.inl hq
          · rcases List.mem_cons.mp hq with hq | hq
            · subst hq; exact Or.inr hopp
            · exact absurd hq (List.not_mem_nil q)
      · obtain ⟨hval, hemp, hopp, _⟩ := hc
        have h2 := ih.2 b p (r + 2*d.1) (c + 2*d.2) (cap ++ [(r + d.1, c + d.2)]) m hp hemp hm
        refine ⟨h2.1, h2.2.1, ?_⟩
        intro q hq
        rcases h2.2.2 q hq with hq2 | hq2
        · rcases List.mem_append.mp hq2 with hq2 | hq2
          · exact Or.inl hq2
          · rcases List.mem_cons.mp hq2 with hq2 | hq2
            · subst hq2; exact Or.inr hopp
            · exact absurd hq2 (List.not_mem_nil q)
        · exact Or.inr hq2
    · intro b p r c cap m hp hemp hm
      rw [get_multi_jumpsF_mem] at hm
      obtain ⟨m2, hm2, _, heq⟩ := hm
      rw [tempPiece_of_empty b p r c hemp] at hm2
      have h1 := ih.1 (bset b r c p) p r c cap m2 hp hm2
      by_cases hv : 0 ≤ r ∧ r < 8 ∧ 0 ≤ c ∧ c < 8
      · have hdne : ¬(m2.2.1.1 = r ∧ m2.2.1.2 = c) := by
          rintro ⟨h1a, h2a⟩
          have : get_piece (bset b r c p) m2.2.1.1 m2.2.1.2 = p := by
            rw [h1a, h2a]; exact get_piece_bset_self b r c p hv
          rw [h1.2.1] at this
          exact player_ne_empty p hp this.symm
        refine ⟨by rw [heq]; exact h1.1, ?_, ?_⟩
        · rw [heq]
          have := get_piece_bset_ne b r c p m2.2.1.1 m2.2.1.2 hdne
          simp only []
          rw [← this]
          exact h1.2.1
        · rw [heq]
          intro q hq
          rcases h1.2.2 q hq with hq2 | hq2
          · exact Or.inl hq2
          · by_cases hqe : q.1 = r ∧ q.2 = c
            · have hgp : get_piece (bset b r c p) q.1 q.2 = p := by
                rw [hqe.1, hqe.2]; exact get_piece_bset_self b r c p hv
              rw [is_opponent_player_false (bset b r c p) p q.1 q.2 hp hgp] at hq2
              exact absurd hq2 (by decide)
            · right
              rw [← is_opponent_congr b (bset b r c p) p q.1 q.2
                    (get_piece_bset_ne b r c p q.1 q.2 hqe).symm] at hq2
              exact hq2
      · rw [bset_invalid b r c p hv] at h1
        refine ⟨by rw [heq]; exact h1.1, by rw [heq]; exact h1.2.1, ?_⟩
        rw [heq]
        exact h1.2.2

/-! Parity: every produced move (capture or simple) keeps the origin and
destination on squares of the same color as the searched square. -/

lemma jumps_multi_parity (f : Nat) :
    (∀ (b : Board) (p : Nat) (r c : Int) (cap : List Coord) (m : Move),
        m ∈ (get_jumpsF f b p r c cap).1 →
        (m.1.1 + m.1.2) % 2 = (r + c) % 2 ∧ (m.2.1.1 + m.2.1.2) % 2 = (r + c) % 2) ∧
    (∀ (b : Board) (p : Nat) (r c : Int) (cap : List Coord) (m : Move),
        m ∈ (get_multi_jumpsF f b p r c cap).1 →
        (m.1.1 + m.1.2) % 2 = (r + c) % 2 ∧ (m.2.1.1 + m.2.1.2) % 2 = (r + c) % 2) := by
  induction f with
  | zero =>
    constructor
    · intro b p r c cap m hm; exact absurd hm (List.not_mem_nil m)
    · intro b p r c cap m hm; exact absurd hm (List.not_mem_nil m)
  | succ f ih =>
    constructor
    · intro b p r c cap m hm
      rw [get_jumpsF_mem] at hm
      obtain ⟨d, _, _, hm | hm⟩ := hm
      · subst hm
        constructor
        · rfl
        · simp only []
          omega
      · have h2 := ih.2 b p (r + 2*d.1) (c + 2*d.2) _ m hm
        have hpar : (r + 2*d.1 + (c + 2*d.2)) % 2 = (r + c) % 2 := by omega
        exact ⟨hpar ▸ h2.1, hpar ▸ h2.2⟩
    · intro b p r c cap m hm
      rw [get_multi_jumpsF_mem] at hm
      obtain ⟨m2, hm2, _, heq⟩ := hm
      have h1 := ih.1 _ p r c cap m2 hm2
      rw [heq]
      exact ⟨rfl, h1.2⟩

/-- Every simple move goes from the searched square to a diagonal
neighbor: origin and destination have equal parity. -/
lemma moves_parity (b : Board) (r c : Int) (m : Move)
    (hm : m ∈ get_movesF b r c) :
    m.1 = (r, c) ∧ (m.2.1.1 + m.2.1.2) % 2 = (r + c) % 2 := by
  rw [get_movesF_mem] at hm
  obtain ⟨d, hd, _, heq⟩ := hm
  have hb := dirs_bound b r c d hd
  subst heq
  refine ⟨rfl, ?_⟩
  simp only []
  rcases hb.1 with h1 | h1 <;> rcases hb.2 with h2 | h2 <;> rw [h1, h2] <;> omega

/-! Characterization of the get_legal_moves scan. -/

lemma legalStep_eq (p : Nat) (ms js : List Move) (b : Board) (q : Coord) :
    legalStep p (ms, js, b) q =
      if is_player_piece b p q.1 q.2 = true then
        ((if js ++ (get_jumpsF FUEL b p q.1 q.2 []).1 = [] then
            ms ++ get_movesF b q.1 q.2
          else ms),
         js ++ (get_jumpsF FUEL b p q.1 q.2 []).1, b)
      else (ms, js, b) := by
  unfold legalStep
  simp only [get_jumpsF_board]

lemma legal_foldl_board (p : Nat) :
    ∀ (l : List Coord) (ms js : List Move) (b : Board),
      (l.foldl (legalStep p) (ms, js, b)).2.2 = b := by
  intro l
  induction l with
  | nil => intro ms js b; rfl
  | cons q t ih =>
    intro ms js b
    rw [List.foldl_cons, legalStep_eq]
    split
    · exact ih _ _ b
    · exact ih ms js b

lemma legal_foldl_jumps (p : Nat) :
    ∀ (l : List Coord) (ms js : List Move) (b : Board),
      (l.foldl (legalStep p) (ms, js, b)).2.1 = js ++ jlist b p l := by
  intro l
  induction l with
  | nil => intro ms js b; simp [jlist]
  | cons q t ih =>
    intro ms js b
    rw [List.foldl_cons, legalStep_eq]
    split
    · next hq =>
      rw [ih]
      rw [jlist, if_pos hq, List.append_assoc]
    · next hq =>
      rw [ih]
      rw [jlist, if_neg hq, List.nil_append]

lemma jlist_nil_head (b : Board) (p : Nat) (q : Coord) (t : List Coord)
    (h : jlist b p (q :: t) = []) :
    (if is_player_piece b p q.1 q.2 = true then (get_jumpsF FUEL b p q.1 q.2 []).1 else []) = []
      ∧ jlist b p t = [] := by
  rw [jlist] at h
  exact List.append_eq_nil.mp h

lemma legal_foldl_moves (p : Nat) :
    ∀ (l : List Coord) (ms : List Move) (b : Board),
      jlist b p l = [] →
      (l.foldl (legalStep p) (ms, [], b)).1 = ms ++ mlist b p l := by
  intro l
  induction l with
  | nil => intro ms b _; simp [mlist]
  | cons q t ih =>
    intro ms b hnil
    obtain ⟨hhead, htail⟩ := jlist_nil_head b p q t hnil
    rw [List.foldl_cons, legalStep_eq]
    split
    · next hq =>
      rw [if_pos hq] at hhead
      simp only [hhead, List.append_nil, List.nil_append, eq_self_iff_true, if_true]
      rw [ih _ b htail]
      rw [mlist, if_pos hq, List.append_assoc]
    · next hq =>
      rw [ih ms b htail]
      rw [mlist, if_neg hq, List.nil_append]

lemma get_legal_moves_eq_jumps (s : GameState)
    (h : jlist s.board s.current_player positionsRM ≠ []) :
    get_legal_moves s = jlist s.board s.current_player positionsRM := by
  unfold get_legal_moves legalF
  have hj := legal_foldl_jumps s.current_player positionsRM [] [] s.board
  rw [List.nil_append] at hj
  rw [hj, if_neg h]

lemma get_legal_moves_eq_moves (s : GameState)
    (h : jlist s.board s.current_player positionsRM = []) :
    get_legal_moves s = mlist s.board s.current_player positionsRM := by
  unfold get_legal_moves legalF
  have hj := legal_foldl_jumps s.current_player positionsRM [] [] s.board
  rw [List.nil_append] at hj
  have hm := legal_foldl_moves s.current_player positionsRM [] s.board h
  rw [List.nil_append] at hm
  rw [hj, if_pos h, hm]

lemma jlist_mem (b : Board) (p : Nat) :
    ∀ (l : List Coord) (m : Move),
      m ∈ jlist b p l ↔
        ∃ q ∈ l, is_player_piece b p q.1 q.2 = true ∧
          m ∈ (get_jumpsF FUEL b p q.1 q.2 []).1 := by
  intro l
  induction l with
  | nil => intro m; simp [jlist]
  | cons q t ih =>
    intro m
    rw [jlist]
    simp only [List.mem_append, ih, List.mem_cons]
    constructor
    · rintro (hm | hm)
      · split at hm
        · next hq => exact ⟨q, Or.inl rfl, hq, hm⟩
        · exact absurd hm (List.not_mem_nil m)
      · obtain ⟨q2, hq2, hp2, hm2⟩ := hm
        exact ⟨q2, Or.inr hq2, hp2, hm2⟩
    · rintro ⟨q2, hq2, hp2, hm2⟩
      rcases hq2 with hq2 | hq2
      · subst hq2
        exact Or.inl (by rw [if_pos hp2]; exact hm2)
      · exact Or.inr ⟨q2, hq2, hp2, hm2⟩

lemma mlist_mem (b : Board) (p : Nat) :
    ∀ (l : List Coord) (m : Move),
      m ∈ mlist b p l ↔
        ∃ q ∈ l, is_player_piece b p q.1 q.2 = true ∧ m ∈ get_movesF b q.1 q.2 := by
  intro l
  induction l with
  | nil => intro m; simp [mlist]
  | cons q t ih =>
    intro m
    rw [mlist]
    simp only [List.mem_append, ih, List.mem_cons]
    constructor
    · rintro (hm | hm)
      · split at hm
        · next hq => exact ⟨q, Or.inl rfl, hq, hm⟩
        · exact absurd hm (List.not_mem_nil m)
      · obtain ⟨q2, hq2, hp2, hm2⟩ := hm
        exact ⟨q2, Or.inr hq2, hp2, hm2⟩
    · rintro ⟨q2, hq2, hp2, hm2⟩
      rcases hq2 with hq2 | hq2
      · subst hq2
        exact Or.inl (by rw [if_pos hp2]; exact hm2)
      · exact Or.inr ⟨q2, hq2, hp2, hm2⟩

/-- Every member of the legal move set has an on-board empty destination
square and captured squares that all hold opponent pieces. -/
lemma legal_inv (s : GameState)
    (hp : s.current_player = BLACK ∨ s.current_player = WHITE) :
    ∀ m ∈ get_legal_moves s,
      validCoord m.2.1 ∧ get_piece s.board m.2.1.1 m.2.1.2 = EMPTY ∧
        ∀ q ∈ m.2.2, is_opponent_piece s.board s.current_player q.1 q.2 = true := by
  intro m hm
  by_cases hj : jlist s.board s.current_player positionsRM = []
  · rw [get_legal_moves_eq_moves s hj] at hm
    rw [mlist_mem] at hm
    obtain ⟨q, _, _, hm⟩ := hm
    rw [get_movesF_mem] at hm
    obtain ⟨d, _, hc, heq⟩ := hm
    subst heq
    refine ⟨?_, hc.2, ?_⟩
    · simpa [validCoord] using (is_valid_position_iff _ _).mp hc.1
    · intro q2 hq2; exact absurd hq2 (List.not_mem_nil q2)
  · rw [get_legal_moves_eq_jumps s hj] at hm
    rw [jlist_mem] at hm
    obtain ⟨q, _, _, hm⟩ := hm
    have h := (jumps_multi_inv FUEL).1 s.board s.current_player q.1 q.2 [] m hp hm
    refine ⟨h.1, h.2.1, ?_⟩
    intro q2 hq2
    rcases h.2.2 q2 hq2 with hq2 | hq2
    · exact absurd hq2 (List.not_mem_nil q2)
    · exact hq2

/-- Every member of the legal move set joins squares of equal parity. -/
lemma legal_parity (s : GameState) :
    ∀ m ∈ get_legal_moves s,
      (m.1.1 + m.1.2) % 2 = (m.2.1.1 + m.2.1.2) % 2 := by
  intro m hm
  by_cases hj : jlist s.board s.current_player positionsRM = []
  · rw [get_legal_moves_eq_moves s hj] at hm
    rw [mlist_mem] at hm
    obtain ⟨q, _, _, hm⟩ := hm
    have h := moves_parity s.board q.1 q.2 m hm
    rw [h.1, h.2]
  · rw [get_legal_moves_eq_jumps s hj] at hm
    rw [jlist_mem] at hm
    obtain ⟨q, _, _, hm⟩ := hm
    have h := (jumps_multi_parity FUEL).1 s.board s.current_player q.1 q.2 [] m hm
    rw [h.1, h.2]

/-! Analysis of make_move. -/

lemma make_move_none (s : GameState) (fp tp : Coord)
    (h : (get_legal_moves s).find? (fun m => (m.1 == fp) && (m.2.1 == tp)) = none) :
    make_move s fp tp = (false, s) := by
  unfold make_move
  rw [h]

lemma make_move_some (s : GameState) (fp tp : Coord) (m : Move)
    (h : (get_legal_moves s).find? (fun m => (m.1 == fp) && (m.2.1 == tp)) = some m) :
    make_move s fp tp = (true, ⟨apply_moveB s.board m, opp s.current_player⟩) := by
  unfold make_move
  rw [h]

lemma make_move_success (s : GameState) (fp tp : Coord)
    (h : (make_move s fp tp).1 = true) :
    ∃ m ∈ get_legal_moves s, m.1 = fp ∧ m.2.1 = tp ∧
      (make_move s fp tp).2 = ⟨apply_moveB s.board m, opp s.current_player⟩ := by
  cases hf : (get_legal_moves s).find? (fun m => (m.1 == fp) && (m.2.1 == tp)) with
  | none =>
    rw [make_move_none s fp tp hf] at h
    simp at h
  | some m =>
    have hmem := List.mem_of_find?_eq_some hf
    have hpred := List.find?_some hf
    simp only [Bool.and_eq_true, beq_iff_eq] at hpred
    exact ⟨m, hmem, hpred.1, hpred.2, by rw [make_move_some s fp tp m hf]⟩

lemma clearCaps_cons (b : Board) (q : Coord) (t : List Coord) :
    clearCaps b (q :: t) = clearCaps (bset b q.1 q.2 EMPTY) t := rfl

lemma get_piece_clearCaps (caps : List Coord) :
    ∀ (b : Board) (x y : Int), (∀ q ∈ caps, ¬(x = q.1 ∧ y = q.2)) →
      get_piece (clearCaps b caps) x y = get_piece b x y := by
  induction caps with
  | nil => intro b x y _; rfl
  | cons q t ih =>
    intro b x y hq
    rw [clearCaps_cons, ih _ x y (fun q2 hq2 => hq q2 (List.mem_cons_of_mem q hq2))]
    exact get_piece_bset_ne b q.1 q.2 EMPTY x y (hq q (List.mem_cons_self q t))

lemma get_piece_make_kingB (b : Board) (x y : Int)
    (hv : 0 ≤ x ∧ x < 8 ∧ 0 ≤ y ∧ y < 8) :
    get_piece (make_kingB b x y) x y = promoteVal (get_piece b x y) x := by
  unfold make_kingB promoteVal
  split
  · exact get_piece_bset_self _ _ _ _ hv
  · split
    · exact get_piece_bset_self _ _ _ _ hv
    · rfl

/-- The value left at the destination square by a successful move: the
piece the recorded origin held, promoted per make_king. -/
lemma apply_moveB_dest (s : GameState)
    (hp : s.current_player = BLACK ∨ s.current_player = WHITE)
    (m : Move) (hm : m ∈ get_legal_moves s) :
    get_piece (apply_moveB s.board m) m.2.1.1 m.2.1.2 =
      promoteVal (get_piece s.board m.1.1 m.1.2) m.2.1.1 := by
  obtain ⟨hvd, hde, hcaps⟩ := legal_inv s hp m hm
  unfold validCoord at hvd
  unfold apply_moveB
  have hnc : ∀ q ∈ m.2.2, ¬(m.2.1.1 = q.1 ∧ m.2.1.2 = q.2) := by
    rintro q hq ⟨ha, hb⟩
    have hop := hcaps q hq
    have hne := is_opponent_ne_empty s.board _ q.1 q.2 hop
    apply hne
    rw [← ha, ← hb]
    exact hde
  rw [get_piece_make_kingB _ _ _ hvd, get_piece_clearCaps _ _ _ _ hnc,
    get_piece_bset_self _ _ _ _ hvd]

/-! Dark-square preservation. -/

lemma parity_of_nonempty (b : Board) (x y : Int)
    (h : darkOnly b) (hne : get_piece b x y ≠ EMPTY) : (x + y) % 2 = 1 := by
  unfold get_piece at hne
  split at hne
  · next hv =>
    by_contra hpar
    apply hne
    apply h
    simp only [Fin.val_mk]
    omega
  · exact absurd rfl hne

lemma darkOnly_bset (b : Board) (x y : Int) (v : Nat)
    (h : darkOnly b) (hv : v = EMPTY ∨ (x + y) % 2 = 1) : darkOnly (bset b x y v) := by
  intro i j hpar
  unfold bset
  split
  · next hc =>
    rcases hv with hv | hv
    · exact hv
    · exfalso
      obtain ⟨hi, hj⟩ := hc
      omega
  · exact h i j hpar

lemma darkOnly_clearCaps (caps : List Coord) :
    ∀ b : Board, darkOnly b → darkOnly (clearCaps b caps) := by
  induction caps with
  | nil => intro b h; exact h
  | cons q t ih =>
    intro b h
    rw [clearCaps_cons]
    exact ih _ (darkOnly_bset b q.1 q.2 EMPTY h (Or.inl rfl))

lemma darkOnly_make_kingB (b : Board) (x y : Int)
    (h : darkOnly b) : darkOnly (make_kingB b x y) := by
  unfold make_kingB
  split
  · next hc =>
    refine darkOnly_bset b x y BLACK_KING h (Or.inr ?_)
    exact parity_of_nonempty b x y h (by rw [hc.1]; decide)
  · split
    · next hc =>
      refine darkOnly_bset b x y WHITE_KING h (Or.inr ?_)
      exact parity_of_nonempty b x y h (by rw [hc.1]; decide)
    · exact h

lemma darkOnly_make_move (s : GameState) (fp tp : Coord)
    (h : darkOnly s.board) : darkOnly (make_move s fp tp).2.board := by
  cases hf : (get_legal_moves s).find? (fun m => (m.1 == fp) && (m.2.1 == tp)) with
  | none => rw [make_move_none _ _ _ hf]; exact h
  | some m =>
    rw [make_move_some _ _ _ _ hf]
    have hmem := List.mem_of_find?_eq_some hf
    unfold apply_moveB
    apply darkOnly_make_kingB
    apply darkOnly_clearCaps
    apply darkOnly_bset
    · exact darkOnly_bset _ _ _ _ h (Or.inl rfl)
    · by_cases hpc : get_piece s.board m.1.1 m.1.2 = EMPTY
      · exact Or.inl hpc
      · right
        have h1 := parity_of_nonempty s.board m.1.1 m.1.2 h hpc
        have h2 := legal_parity s m hmem
        omega

lemma darkOnly_playMoves :
    ∀ (l : List (Coord × Coord)) (s : GameState),
      darkOnly s.board → darkOnly (playMoves s l).board := by
  intro l
  induction l with
  | nil => intro s h; exact h
  | cons mv t ih =>
    intro s h
    rcases mv with ⟨fp, tp⟩
    exact ih _ (darkOnly_make_move s fp tp h)

/-! Claim theorems. -/

/-- C1: for every board and side to move, if any capture is available for
any piece of that side, get_legal_moves returns exactly the accumulated
capture moves of every piece (all with a nonempty captured list, hence
zero non-capture moves); if no capture exists anywhere it returns exactly
the simple one-step diagonal moves of every piece. -/
theorem c1_capture_precedence (s : GameState) :
    (jlist s.board s.current_player positionsRM ≠ [] →
       get_legal_moves s = jlist s.board s.current_player positionsRM ∧
       ∀ m ∈ get_legal_moves s, m.2.2 ≠ []) ∧
    (jlist s.board s.current_player positionsRM = [] →
       get_legal_moves s = mlist s.board s.current_player positionsRM ∧
       ∀ m ∈ get_legal_moves s, m.2.2 = []) ∧
    (jlist s.board s.current_player positionsRM ≠ [] ↔
       ∃ q ∈ positionsRM, is_player_piece s.board s.current_player q.1 q.2 = true ∧
         (get_jumpsF FUEL s.board s.current_player q.1 q.2 []).1 ≠ []) ∧
    (∀ m : Move, m ∈ jlist s.board s.current_player positionsRM ↔
       ∃ q ∈ positionsRM, is_player_piece s.board s.current_player q.1 q.2 = true ∧
         m ∈ (get_jumpsF FUEL s.board s.current_player q.1 q.2 []).1) := by
  refine ⟨?_, ?_, ?_, fun m => jlist_mem s.board s.current_player positionsRM m⟩
  · intro h
    refine ⟨get_legal_moves_eq_jumps s h, ?_⟩
    intro m hm
    rw [get_legal_moves_eq_jumps s h, jlist_mem] at hm
    obtain ⟨q, _, _, hm⟩ := hm
    have hlen := jumps_caps_len FUEL s.board s.current_player q.1 q.2 [] m hm
    intro hc
    rw [hc] at hlen
    simp at hlen
  · intro h
    refine ⟨get_legal_moves_eq_moves s h, ?_⟩
    intro m hm
    rw [get_legal_moves_eq_moves s h, mlist_mem] at hm
    obtain ⟨q, _, _, hm⟩ := hm
    rw [get_movesF_mem] at hm
    obtain ⟨d, _, _, heq⟩ := hm
    rw [heq]
  · constructor
    · intro h
      obtain ⟨m, hm⟩ := List.exists_mem_of_ne_nil _ h
      rw [jlist_mem] at hm
      obtain ⟨q, hq, hp2, hm2⟩ := hm
      refine ⟨q, hq, hp2, fun hc => ?_⟩
      rw [hc] at hm2
      exact absurd hm2 (List.not_mem_nil m)
    · rintro ⟨q, hq, hp2, hj⟩ hnil
      obtain ⟨m, hm⟩ := List.exists_mem_of_ne_nil _ hj
      have hmem : m ∈ jlist s.board s.current_player positionsRM :=
        (jlist_mem s.board s.current_player positionsRM m).mpr ⟨q, hq, hp2, hm⟩
      rw [hnil] at hmem
      exact absurd hmem (List.not_mem_nil m)

/-- Witness for C1: the initial position has no captures, so the legal set
is exactly the simple moves; the c3state position has a capture, so the
legal set is exactly the accumulated jumps. -/
theorem c1_capture_precedence_witness :
    (get_legal_moves initState =
       mlist initState.board initState.current_player positionsRM) ∧
    (get_legal_moves c3state = jlist c3state.board c3state.current_player positionsRM) :=
  ⟨((c1_capture_precedence initState).2.1 (by decide)).1,
   ((c1_capture_precedence c3state).1 (by decide)).1⟩

/-- C2: make_move returns true exactly when some legal move matches the
requested origin and destination; on failure the whole state is returned
unchanged; on success the state is the recorded board update (origin
cleared, piece written at the destination, captured squares cleared,
make_king applied) with the side to move flipped. The embedding is a total
function, matching the no-exception contract. -/
theorem c2_make_move_contract (s : GameState) (fp tp : Coord) :
    ((make_move s fp tp).1 = true ↔
       ∃ m ∈ get_legal_moves s, m.1 = fp ∧ m.2.1 = tp) ∧
    ((make_move s fp tp).1 = false → (make_move s fp tp).2 = s) ∧
    ((make_move s fp tp).1 = true →
       ∃ m ∈ get_legal_moves s, m.1 = fp ∧ m.2.1 = tp ∧
         (make_move s fp tp).2 = ⟨apply_moveB s.board m, opp s.current_player⟩) := by
  refine ⟨⟨?_, ?_⟩, ?_, fun h => make_move_success s fp tp h⟩
  · intro h
    obtain ⟨m, hm, h1, h2, _⟩ := make_move_success s fp tp h
    exact ⟨m, hm, h1, h2⟩
  · rintro ⟨m, hm, h1, h2⟩
    cases hf : (get_legal_moves s).find? (fun m => (m.1 == fp) && (m.2.1 == tp)) with
    | none =>
      have := List.find?_eq_none.mp hf m hm
      simp [h1, h2] at this
    | some m2 =>
      rw [make_move_some s fp tp m2 hf]
  · intro h
    cases hf : (get_legal_moves s).find? (fun m => (m.1 == fp) && (m.2.1 == tp)) with
    | none => rw [make_move_none s fp tp hf]
    | some m2 =>
      rw [make_move_some s fp tp m2 hf] at h
      simp at h

/-- Witness for C2: in the initial position the black man on (5,0) can
step to (4,1) and make_move accepts it, while an arbitrary non-move is
rejected with the state unchanged. -/
theorem c2_make_move_contract_witness :
    (make_move initState (5,0) (4,1)).1 = true ∧
    (make_move initState (0,0) (1,1)).2 = initState :=
  ⟨(c2_make_move_contract initState (5,0) (4,1)).1.mpr
      ⟨((5,0),(4,1),[]), by decide, rfl, rfl⟩,
   (c2_make_move_contract initState (0,0) (1,1)).2.1 (by decide)⟩

/-- C3 (bug evidence): in the position where the black man on (5,2) can
capture (4,3) landing on (3,4) and then capture (2,5) landing on (1,6),
the legal move list records the continuation with origin (3,4) — the
landing square of the first hop — instead of the true origin (5,2); the
full chain from (5,2) to (1,6) is absent and make_move rejects it. -/
theorem c3_chain_origin_bug :
    get_legal_moves c3state =
      [((5,2),(3,4),[(4,3)]), ((3,4),(1,6),[(4,3),(2,5)])] ∧
    ((5,2),(1,6),[(4,3),(2,5)]) ∉ get_legal_moves c3state ∧
    (make_move c3state (5,2) (1,6)).1 = false := by decide

/-- C4: the move generation scan returns the board it was given — the
temporary writes of get_multi_jumps are all undone, at every fuel level
and at the top-level get_legal_moves scan. The generator never assigns
current_player, which the embedding reflects by threading only the board. -/
theorem c4_generation_pure (s : GameState) :
    (legalF s.board s.current_player).2.2 = s.board ∧
    (∀ (f : Nat) (r c : Int) (cap : List Coord),
        (get_jumpsF f s.board s.current_player r c cap).2 = s.board) ∧
    (∀ (f : Nat) (r c : Int) (cap : List Coord),
        (get_multi_jumpsF f s.board s.current_player r c cap).2 = s.board) := by
  refine ⟨?_, ?_, ?_⟩
  · unfold legalF
    exact legal_foldl_board s.current_player positionsRM [] [] s.board
  · intro f r c cap
    exact get_jumpsF_board f s.board s.current_player r c cap
  · intro f r c cap
    exact get_multi_jumpsF_board f s.board s.current_player r c cap

/-- C5 (counterexample): a black man chain ending on promotion row 0 is
applied by make_move without promoting anything: the recorded origin (2,3)
is empty, so the destination (0,5) stays empty and the capturing man on
(4,1) never moves and never becomes a king. -/
theorem c5_chain_promotion_counterexample :
    (make_move c5state (2,3) (0,5)).1 = true ∧
    get_piece (make_move c5state (2,3) (0,5)).2.board 0 5 = EMPTY ∧
    get_piece (make_move c5state (2,3) (0,5)).2.board 4 1 = BLACK := by decide

/-- C5 (amended): after every successful make_move the destination square
holds exactly promoteVal of the piece that stood on the recorded origin:
a man is promoted iff the destination row is its promotion row (0 for a
black man, 7 for a white man), evaluated once after the captured pieces
are removed; a king stays a king; and when the recorded origin is empty
(the chain moves of the C3 defect) the destination stays empty, so no
mid-chain promotion ever occurs. -/
theorem c5_promotion (s : GameState) (fp tp : Coord)
    (hp : s.current_player = BLACK ∨ s.current_player = WHITE)
    (hs : (make_move s fp tp).1 = true) :
    get_piece (make_move s fp tp).2.board tp.1 tp.2 =
      promoteVal (get_piece s.board fp.1 fp.2) tp.1 := by
  obtain ⟨m, hm, hfp, htp, heq⟩ := make_move_success s fp tp hs
  rw [heq, ← hfp, ← htp]
  exact apply_moveB_dest s hp m hm

/-- Witness for C5: a black man stepping from (1,2) to (0,1) is promoted
to a black king. -/
theorem c5_promotion_witness :
    get_piece (make_move c5wstate (1,2) (0,1)).2.board 0 1 = BLACK_KING := by
  have h := c5_promotion c5wstate (1,2) (0,1) (Or.inl rfl) (by decide)
  exact h.trans (by decide)

/-- C6 (amended, checker_server.py side): is_game_over holds exactly when
the legal move list is empty, and get_winner returns the opponent of the
side to move when the game is over and None otherwise. -/
theorem c6_terminal_winner (s : GameState) :
    (is_game_over s = true ↔ get_legal_moves s = []) ∧
    (get_winner s = if is_game_over s = true then
        some (if s.current_player = BLACK then WHITE else BLACK) else none) ∧
    (is_game_over s = false → get_winner s = none) := by
  refine ⟨?_, rfl, ?_⟩
  · unfold is_game_over
    simp [List.length_eq_zero]
  · intro h
    unfold get_winner
    simp [h]

/-- Witness for C6: with no black piece on the board and Black to move the
position is terminal and White is the winner. -/
theorem c6_terminal_winner_witness :
    is_game_over c6wstate = true ∧ get_winner c6wstate = some WHITE :=
  ⟨(c6_terminal_winner c6wstate).1.mpr (by decide), by decide⟩

/-- C6 (counterexample, merge_server.py side): on the initial position the
game is not over, yet merge_server.py get_winner already returns a side
(White), because that variant omits the terminal check. -/
theorem c6_merge_winner_counterexample :
    merge_is_game_over initState = false ∧ merge_get_winner initState = WHITE := by decide

/-- C7 (bug evidence): the white king on (2,1) jumps (3,2) landing on
(4,3), from where a real king could capture (3,4) backwards to (2,5); but
get_multi_jumps writes a plain white man on the landing square (is_king is
evaluated on the still-empty landing square), so the probe only sees the
two forward directions and the legal list has no two-capture move. -/
theorem c7_king_chain_bug :
    get_legal_moves c7state = [((2,1),(4,3),[(3,2)])] ∧
    get_move_directions c7state.board 2 1 = [(-1,-1),(-1,1),(1,-1),(1,1)] ∧
    get_move_directions (bset c7state.board 4 3 WHITE) 4 3 = [(1,-1),(1,1)] := by decide

/-- C8: the initial setup puts pieces only on dark squares, and every
sequence of make_move calls preserves this: every square whose row+col is
even stays empty in every reachable state. -/
theorem c8_dark_squares :
    darkOnly initState.board ∧
    ∀ l : List (Coord × Coord), darkOnly (playMoves initState l).board :=
  ⟨by decide, fun l => darkOnly_playMoves l initState (by decide)⟩

/-- C9 (counterexample): the string "0,1-2,3-4,5" does not match the wire
grammar (it has a third dash-separated part) yet parse_move accepts it,
silently ignoring the extra part. -/
theorem c9_parse_superset_counterexample :
    parse_move "0,1-2,3-4,5" = some ((0,1),(2,3)) := by decide

/-- C9 (amended): every string that does match the grammar parses to the
written coordinate pair, and whenever parse_move fails is_valid_move is
false; but parse_move accepts a superset of the grammar (extra fields,
out-of-range integers, signs and surrounding whitespace). -/
theorem c9_parse_amended :
    (∀ a b c d : Fin 8, parse_move (gstr a b c d) =
        some (((a.val : Int), (b.val : Int)), ((c.val : Int), (d.val : Int)))) ∧
    (∀ (s : GameState) (ms : String), parse_move ms = none → is_valid_move s ms = false) := by
  constructor
  · decide
  · intro s ms h
    unfold is_valid_move
    rw [h]

/-- Witness for C9: the grammar string 5,0-4,1 parses to its coordinates,
and an unparsable string is reported as an invalid move. -/
theorem c9_parse_amended_witness :
    parse_move (gstr 5 0 4 1) = some ((5,0),(4,1)) ∧
    is_valid_move initState "junk" = false :=
  ⟨c9_parse_amended.1 5 0 4 1, c9_parse_amended.2 initState "junk" (by decide)⟩

/-- C10: get_piece is total and returns the EMPTY sentinel for every
off-board coordinate, indistinguishable from reading an empty on-board
square. -/
theorem c10_get_piece_total (b : Board) (r c : Int)
    (h : is_valid_position r c = false) : get_piece b r c = EMPTY := by
  apply get_piece_invalid
  intro hc
  rw [(is_valid_position_iff r c).mpr hc] at h
  simp at h

/-- Witness for C10: probing (-1,3) and (2,8) on the initial board returns
EMPTY. -/
theorem c10_get_piece_total_witness :
    get_piece initial_board (-1) 3 = EMPTY ∧ get_piece initial_board 2 8 = EMPTY :=
  ⟨c10_get_piece_total initial_board (-1) 3 (by decide),
   c10_get_piece_total initial_board 2 8 (by decide)⟩
